import Mathlib

/-!
A verification development for `fetch_rates.py`, a quota-aware incremental
fetcher of daily currency exchange rates.

The Python source is shallowly embedded as executable Lean definitions:

* calendar dates are encoded as natural numbers `(y*100 + m)*100 + d`;
  this encoding is strictly monotone in the ISO string `YYYY-MM-DD`
  (for four-digit years), so sorting by `Nat` order models Python's
  lexicographic sort of ISO date strings;
* Python floats are modelled by rationals `ℚ`;
* Python dicts are modelled by association lists (`List (key × value)`)
  with last-write-wins update semantics, or by explicit oracle functions
  where only membership matters;
* the remote HTTP service, the wall clock and the filesystem are modelled
  by explicit oracle parameters, so every function here is pure and
  executable.
-/

/-- A cell of a monthly CSV archive: a parsed numeric value, the explicit
blank sentinel for an absent rate, or a raw string kept verbatim when a
non-empty cell does not parse as a number (see `readCsvRows`). -/
inductive Cell where
  | num (q : ℚ)
  | blank
  | raw (s : String)
deriving DecidableEq, Repr

/-- True exactly on numeric cells. -/
def Cell.isNumC : Cell → Bool
  | .num _ => true
  | _ => false

/-- True exactly on the blank sentinel. -/
def Cell.isBlankC : Cell → Bool
  | .blank => true
  | _ => false

/-- Sorting a list of `Nat`-encoded dates ascending; models Python
`list.sort()` on ISO date strings.  Python's sort is stable, and any two
stable comparison sorts compute the same function, so the structurally
recursive insertion sort is used. -/
def sortNat (l : List Nat) : List Nat :=
  List.insertionSort (· ≤ ·) l

/-- Decision of the quota budgeting step of `main`
(`fetch_rates.py` lines 316-341). -/
inductive PlanDecision where
  | skip
  | proceed (dates : List Nat)
deriving DecidableEq, Repr

/-- The quota budgeting step of `main` (`fetch_rates.py` lines 312,
316-341): sort the missing dates (`missing_dates.sort()`), skip when the
remaining quota is below the safety buffer or nothing is available after
the buffer, skip when the available budget is short and a fraction of the
month is not allowed, otherwise fetch the whole (sorted) list or its
first `available` dates. `remaining` and `buffer` are Python ints,
modelled as `Int`. -/
def plan (remaining buffer : Int) (missing : List Nat) (allowIncomplete : Bool) :
    PlanDecision :=
  let sorted := sortNat missing
  if remaining < buffer then .skip
  else
    let available := remaining - buffer
    if available ≤ 0 then .skip
    else if available < (sorted.length : Int) then
      if !allowIncomplete then .skip
      else .proceed (sorted.take available.toNat)
    else .proceed sorted

/-- Outcome of one run of the coordinator, as observed from outside:
process exit code, number of historical-fetch calls issued, and the
record set handed to `write_csv_rows` (`none` when no write happened). -/
structure RunResult (α : Type) where
  exit : Nat
  requests : Nat
  wrote : Option (List (Nat × α))
deriving Repr

/-- The fetch loop of `main` (`fetch_rates.py` lines 362-369): fetch the
planned dates in order; `fetch d = none` models `get_historical_for_date`
raising.  Returns the rows collected before the first failure and whether
the loop ran to completion. -/
def fetchLoop {α : Type} (fetch : Nat → Option α) : List Nat → List (Nat × α) × Bool
  | [] => ([], true)
  | d :: ds =>
    match fetch d with
    | none => ([], false)
    | some r =>
      let rest := fetchLoop fetch ds
      ((d, r) :: rest.1, rest.2)

/-- Python `dict.update`: `dictUpdate e f` has the entries of `f`
overriding those of `e` on key collision (`existing_rows.update(rows_fetched)`,
`fetch_rates.py` lines 375, 380). -/
def dictUpdate {α : Type} (e f : List (Nat × α)) : List (Nat × α) :=
  e.filter (fun p => (f.lookup p.1).isNone) ++ f

/-- The revalidation of the planned date list performed while holding the
month lock (`fetch_rates.py` lines 351-357): recompute the dates still
missing from the freshly re-read records and keep only planned dates among
them, then sort. -/
def revalidate {α : Type} (existing : List (Nat × α)) (allDates planned : List Nat) :
    List Nat :=
  let missingCur := allDates.filter (fun d => ((existing.lookup d)).isNone)
  sortNat (planned.filter (fun d => missingCur.contains d))

/-- The body of the `with lock:` block of `main` (`fetch_rates.py` lines
348-382): re-read the month (`existing` is the record set read under the
lock), revalidate the planned dates, exit 0 with no fetch and no write if
nothing is left, otherwise run the fetch loop; on failure persist the
partial rows if any and exit 1, on success persist the merge and exit 0. -/
def lockPhase {α : Type} (existing : List (Nat × α)) (allDates planned : List Nat)
    (fetch : Nat → Option α) : RunResult α :=
  let planned2 := revalidate existing allDates planned
  if planned2.isEmpty then ⟨0, 0, none⟩
  else
    let r := fetchLoop fetch planned2
    if r.2 then ⟨0, planned2.length, some (dictUpdate existing r.1)⟩
    else if r.1.isEmpty then ⟨1, r.1.length + 1, none⟩
    else ⟨1, r.1.length + 1, some (dictUpdate existing r.1)⟩

/-- Gregorian leap year test, as used by Python's `calendar.monthrange`. -/
def isLeap (y : Nat) : Bool :=
  y % 4 == 0 && (y % 100 != 0 || y % 400 == 0)

/-- Number of days of month `m` of year `y` (`calendar.monthrange(y, m)[1]`);
meaningful for `1 ≤ m ≤ 12`. -/
def daysInMonth (y m : Nat) : Nat :=
  if m = 2 then (if isLeap y then 29 else 28)
  else if m = 4 ∨ m = 6 ∨ m = 9 ∨ m = 11 then 30 else 31

/-- Encoding of the calendar date `(y, m, d)` as a natural number whose
order agrees with the ISO string `YYYY-MM-DD`. -/
def dkey (y m d : Nat) : Nat :=
  (y * 100 + m) * 100 + d

/-- `dates_in_month` (`fetch_rates.py` lines 276-278): the encoded dates
of the days `1 .. monthrange(y, m)[1]` of the month, ascending. -/
def datesInMonth (y m : Nat) : List Nat :=
  (List.range (daysInMonth y m)).map (fun i => dkey y m (i + 1))

/-- The loop body of `months_since` (`fetch_rates.py` lines 260-273):
yield `(y, m)` pairs while `(y < ty) or (y = ty and m ≤ tm)`, stepping
`12 → (y+1, 1)` and `m → m+1` otherwise, where `(ty, tm)` is today's
year and month.  The source loop maintains `1 ≤ m ≤ 12`; the `m ≤ 12`
conjunct of the guard makes termination manifest and never differs from
the source on any reachable argument. -/
def monthsSinceGo (ty tm : Nat) (y m : Nat) : List (Nat × Nat) :=
  if h : m ≤ 12 ∧ (y < ty ∨ (y = ty ∧ m ≤ tm)) then
    (y, m) ::
      (if m = 12 then monthsSinceGo ty tm (y + 1) 1 else monthsSinceGo ty tm y (m + 1))
  else []
termination_by (ty + 1 - y) * 13 + (12 - m)
decreasing_by
  all_goals omega

/-- `months_since(year_start)` with today's year/month made explicit
parameters `(ty, tm)`. -/
def monthsSince (ty tm yearStart : Nat) : List (Nat × Nat) :=
  monthsSinceGo ty tm yearStart 1

/-- Total order key on `(year, month)` pairs, order-isomorphic to the
chronological order for `1 ≤ m ≤ 12`. -/
def mkey (y m : Nat) : Nat :=
  y * 12 + m

/-- The dates of month `(y, m)` missing from the archive, where
`archive y m` is the record set `read_csv_rows` returns for that month
(`missing = [d for d in all_dates if d not in existing]`,
`fetch_rates.py` line 302). -/
def missingIn {α : Type} (archive : Nat → Nat → List (Nat × α)) (y m : Nat) :
    List Nat :=
  (datesInMonth y m).filter (fun d => ((archive y m).lookup d).isNone)

/-- The month locating loop of `main` (`fetch_rates.py` lines 296-305):
scan the months in order and return the first one whose missing set is
non-empty, together with that missing set. -/
def findTarget {α : Type} (archive : Nat → Nat → List (Nat × α)) :
    List (Nat × Nat) → Option (Nat × Nat × List Nat)
  | [] => none
  | (y, m) :: rest =>
    let miss := missingIn archive y m
    if miss.isEmpty then findTarget archive rest else some (y, m, miss)

/-- The whole of `main` (`fetch_rates.py` lines 284-391) as a pure
function.  `status` is `get_status()`: `none` when the endpoint is
unreachable, otherwise `some remaining?` with the (possibly absent)
remaining monthly quota.  `archive` is the pre-lock archive oracle,
`existingLocked` the record set re-read under the lock, `fetch` the
historical-fetch oracle.  Lock acquisition itself is assumed to succeed
(its timeout path exits 1 without fetching or writing). -/
def mainModel {α : Type} (buffer : Int) (allowIncomplete : Bool)
    (ty tm yearStart : Nat) (archive : Nat → Nat → List (Nat × α))
    (status : Option (Option Int)) (existingLocked : List (Nat × α))
    (fetch : Nat → Option α) : RunResult α :=
  match status with
  | none => ⟨1, 0, none⟩
  | some remainingOpt =>
    match findTarget archive (monthsSince ty tm yearStart) with
    | none => ⟨0, 0, none⟩
    | some (y, m, missing) =>
      match remainingOpt with
      | none => ⟨1, 0, none⟩
      | some remaining =>
        match plan remaining buffer missing allowIncomplete with
        | .skip => ⟨0, 0, none⟩
        | .proceed planned => lockPhase existingLocked (datesInMonth y m) planned fetch

/-- One normalized row of a month CSV as held in memory: the date (as the
string key cell carries it) and the value cell for each configured
currency, in configuration order. -/
structure SRow where
  date : String
  rates : List (String × Cell)
deriving DecidableEq, Repr

/-- A row as produced by Python's `csv.DictReader`: a partial mapping from
column name to raw cell string (an absent key models both a missing column
and `DictReader`'s `None` fill value). -/
def RawRow : Type := List (String × String)

/-- Digit characters of a numeral read as a natural number. -/
def natOfDigits (l : List Char) : Nat :=
  l.foldl (fun a c => a * 10 + (c.toNat - 48)) 0

/-- Core of the model of Python `float(s)`: an unsigned decimal numeral,
digits with an optional single point, at least one digit overall
(`"1"`, `"1.5"`, `"1."`, `".5"`).  Scientific notation and the special
values are omitted from the model; the claims only rely on the
parseable/unparseable case split. -/
def parseFloatCore (l : List Char) : Option ℚ :=
  let ip := l.takeWhile Char.isDigit
  let rest := l.dropWhile Char.isDigit
  match rest with
  | [] => if ip.isEmpty then none else some (natOfDigits ip)
  | '.' :: fp =>
    if fp.all Char.isDigit && !(ip.isEmpty && fp.isEmpty) then
      some ((natOfDigits ip : ℚ) + (natOfDigits fp : ℚ) / (10 : ℚ) ^ fp.length)
    else none
  | _ => none

/-- Leading and trailing whitespace stripped from a character list
(Python `str.strip`, applied by `float`). -/
def trimChars (l : List Char) : List Char :=
  ((l.dropWhile Char.isWhitespace).reverse.dropWhile Char.isWhitespace).reverse

/-- Model of Python `float(s)` as used by `read_csv_rows`: strip
whitespace, optional sign, decimal numeral. -/
def parseFloat (s : String) : Option ℚ :=
  match trimChars s.toList with
  | '-' :: rest => (parseFloatCore rest).map Neg.neg
  | '+' :: rest => parseFloatCore rest
  | l => parseFloatCore l

/-- Normalization of one raw cell (`fetch_rates.py` lines 219-226): an
absent or empty cell becomes the blank sentinel; a non-empty cell becomes
its parsed number when `float(val)` succeeds and is kept as the raw
string otherwise. -/
def normalizeCell (v : Option String) : Cell :=
  match v with
  | none => Cell.blank
  | some s =>
    if s = "" then Cell.blank
    else
      match parseFloat s with
      | some q => Cell.num q
      | none => Cell.raw s

/-- Normalization of one raw row with date value `d`
(`fetch_rates.py` lines 217-226). -/
def normalizeRow (currencies : List String) (r : RawRow) (d : String) : SRow :=
  { date := d, rates := currencies.map (fun c => (c, normalizeCell (r.lookup c))) }

/-- Python dict assignment `result[d] = row` on an association list. -/
def upsertS (acc : List (String × SRow)) (d : String) (row : SRow) :
    List (String × SRow) :=
  acc.filter (fun p => p.1 ≠ d) ++ [(d, row)]

/-- Processing of one parsed CSV row (`fetch_rates.py` lines 211-227):
rows with an absent or empty date cell are skipped, every other row is
normalized and stored under its date key. -/
def readStep (currencies : List String) (acc : List (String × SRow)) (r : RawRow) :
    List (String × SRow) :=
  match r.lookup "date" with
  | none => acc
  | some d => if d = "" then acc else upsertS acc d (normalizeRow currencies r d)

/-- `read_csv_rows` (`fetch_rates.py` lines 201-230) at row granularity:
`none` models a missing file (empty result); otherwise every parsed row
with a present, non-empty date cell is normalized and stored under its
date key.  The surrounding `try` of the source catches any read failure
without failing the run; the model is total by construction. -/
def readCsvRows (currencies : List String) (file : Option (List RawRow)) :
    List (String × SRow) :=
  match file with
  | none => []
  | some rows => rows.foldl (readStep currencies) []

/-- True on a parsed CSV row with a present, non-empty date cell. -/
def rowHasDate (r : RawRow) : Bool :=
  match r.lookup "date" with
  | none => false
  | some d => d != ""

/-- `get_historical_for_date` (`fetch_rates.py` lines 164-191) given the
final response of `do_request`: its status and the day's rate mapping
`apiDay` as the remote API returned it.  A 429 or any other non-200
status raises (`Except.error`); on 200 the base currency's rate is forced
to `1.0` before the row is built over the configured currencies. -/
def getHistoricalForDate (base : String) (currencies : List String)
    (status : Nat) (apiDay : String → Option ℚ) (dateIso : String) :
    Except String SRow :=
  if status = 429 then .error "API 429: rate/quota exceeded"
  else if status ≠ 200 then .error ("HTTP " ++ toString status)
  else
    let day : String → Option ℚ := fun c => if c = base then some 1 else apiDay c
    .ok { date := dateIso,
          rates := currencies.map (fun c =>
            (c, match day c with
                | none => Cell.blank
                | some v => Cell.num v)) }

/-- Outcome of one HTTP attempt inside `do_request`: a transport
exception (`requests.RequestException`) or a response with its status
code. -/
inductive Outcome where
  | err
  | resp (status : Nat)
deriving DecidableEq, Repr

/-- An attempt outcome `do_request` retries on: a transport failure or an
HTTP 5xx response. -/
def retriable : Outcome → Prop
  | .err => True
  | .resp st => 500 ≤ st

instance : DecidablePred retriable := fun o => by
  cases o <;> simp [retriable] <;> infer_instance

/-- The retry loop of `do_request` (`fetch_rates.py` lines 110-134),
driven by the oracle `o` giving the outcome of each attempt (attempts are
numbered from 1).  The first argument counts the retries still allowed
(`MAX_RETRIES - (attempt - 1)`; the source retries while
`attempt <= MAX_RETRIES`).  Returns the list of backoff sleeps performed
(`RETRY_BASE_SECONDS * 2 ** (attempt - 1)` before each retry) and either
`Except.error ()` for a transport failure re-raised after exhausting
retries or `Except.ok (attempt, status)` for the response returned to the
caller. -/
def doRequestGo (base : ℚ) (o : Nat → Outcome) :
    Nat → Nat → List ℚ × Except Unit (Nat × Nat)
  | 0, attempt =>
    (match o attempt with
     | .err => ([], .error ())
     | .resp st => ([], .ok (attempt, st)))
  | (n + 1), attempt =>
    match o attempt with
    | .err =>
      let rest := doRequestGo base o n (attempt + 1)
      (base * 2 ^ (attempt - 1) :: rest.1, rest.2)
    | .resp st =>
      if 500 ≤ st then
        let rest := doRequestGo base o n (attempt + 1)
        (base * 2 ^ (attempt - 1) :: rest.1, rest.2)
      else ([], .ok (attempt, st))

/-- `do_request` (`fetch_rates.py` lines 103-134): the retry loop started
at attempt 1 with `MAX_RETRIES` retries allowed. -/
def doRequest (maxRetries : Nat) (base : ℚ) (o : Nat → Outcome) :
    List ℚ × Except Unit (Nat × Nat) :=
  doRequestGo base o maxRetries 1

/-- One line of a serialized month CSV: the header naming the columns, or
a data line with its date key and its cells in column order. -/
inductive CsvLine where
  | header (cols : List String)
  | data (dateKey : Nat) (cells : List Cell)
deriving DecidableEq, Repr

/-- A row of a month record set as written by `write_csv_rows`: the date
key and the cell for each configured currency. -/
structure NRow where
  date : Nat
  rates : List (String × Cell)
deriving DecidableEq, Repr

/-- The two files `write_csv_rows` touches: the destination archive file
and its sibling temporary file, each either absent or holding a list of
serialized lines. -/
structure FS where
  dest : Option (List CsvLine)
  tmp : Option (List CsvLine)
deriving DecidableEq, Repr

/-- Primitive filesystem steps of `write_csv_rows`: create the (empty)
temporary file, append one line to it, atomically rename it over the
destination, and the `finally` cleanup that unlinks the temporary file if
it still exists. -/
inductive WOp where
  | createTmp
  | writeLine (l : CsvLine)
  | renameTmp
  | cleanup
deriving DecidableEq, Repr

/-- Effect of one primitive step on the two files. -/
def applyOp (fs : FS) : WOp → FS
  | .createTmp => { fs with tmp := some [] }
  | .writeLine l => { fs with tmp := fs.tmp.map (fun c => c ++ [l]) }
  | .renameTmp =>
    match fs.tmp with
    | some c => { dest := some c, tmp := none }
    | none => fs
  | .cleanup => { fs with tmp := none }

/-- Run a sequence of primitive steps. -/
def runOps (fs : FS) (ops : List WOp) : FS :=
  ops.foldl applyOp fs

/-- Serialization of one record row in the fixed column order: the date,
then the cell of each configured currency (`csv.DictWriter` with
`fieldnames = ["date"] + CURRENCIES`). -/
def serializeRow (currencies : List String) (r : NRow) : CsvLine :=
  .data r.date (currencies.map (fun c => (r.rates.lookup c).getD Cell.blank))

/-- The steps `write_csv_rows` (`fetch_rates.py` lines 233-248) performs
up to and including the atomic rename: create the temporary file, write
the header, write one line per record in ascending date order
(`sorted(rows_by_date.keys())`), rename the temporary file over the
destination. -/
def writeScript (currencies : List String) (rows : List (Nat × NRow)) : List WOp :=
  WOp.createTmp ::
    WOp.writeLine (.header ("date" :: currencies)) ::
      ((sortNat (rows.map Prod.fst)).filterMap (fun d =>
        (rows.lookup d).map (fun r => WOp.writeLine (serializeRow currencies r)))
       ++ [WOp.renameTmp])

/-- The full serialized content `write_csv_rows` produces. -/
def serializeAll (currencies : List String) (rows : List (Nat × NRow)) :
    List CsvLine :=
  CsvLine.header ("date" :: currencies) ::
    (sortNat (rows.map Prod.fst)).filterMap (fun d =>
      (rows.lookup d).map (serializeRow currencies))

/-- A complete, uninterrupted run of `write_csv_rows` (`fetch_rates.py`
lines 233-254): every step of the script, then the `finally` cleanup. -/
def writeCsvRows (currencies : List String) (rows : List (Nat × NRow)) (fs : FS) :
    FS :=
  runOps fs (writeScript currencies rows ++ [WOp.cleanup])

/-- A run of `write_csv_rows` interrupted by an exception after its first
`k` steps: the remaining steps are skipped and the `finally` cleanup
still runs (`fetch_rates.py` lines 249-254). -/
def writeCsvRowsFailAt (currencies : List String) (rows : List (Nat × NRow))
    (k : Nat) (fs : FS) : FS :=
  runOps fs ((writeScript currencies rows).take k ++ [WOp.cleanup])

/-- Timestamps of the rolling rate-limiter window that are within the
trailing 60 seconds of `now`
(`[t for t in _request_timestamps if now - t < 60.0]`). -/
def pruneWindow (now : ℚ) (ts : List ℚ) : List ℚ :=
  ts.filter (fun t => decide (now - t < 60))

/-- Python `min` on a non-empty list of timestamps (0 on the empty list,
never reached under the hypotheses used here). -/
def listMin : List ℚ → ℚ
  | [] => 0
  | t :: ts => ts.foldl min t

/-- `wait_for_rate_slot` (`fetch_rates.py` lines 79-96) together with the
clock: `now` is `time.time()` at entry and `awake u` is the value of
`time.time()` after a sleep requested to end at time `u` (so `u ≤ awake u`
for a clock that moves forward by at least the slept duration).  Returns
the current time at return and the new timestamp list.  If the pruned
window is below the cap, return at once; otherwise sleep
`60 - (now - oldest) + 0.05` seconds and prune again. -/
def waitForRateSlot (maxPerMinute : Nat) (now : ℚ) (ts : List ℚ)
    (awake : ℚ → ℚ) : ℚ × List ℚ :=
  let ts1 := pruneWindow now ts
  if ts1.length < maxPerMinute then (now, ts1)
  else
    let oldest := listMin ts1
    let now2 := awake (now + (60 - (now - oldest) + 0.05))
    (now2, pruneWindow now2 ts1)

/-! ## Helper lemmas -/

/-- `sortNat` permutes its input. -/
lemma sortNat_perm (l : List Nat) : (sortNat l).Perm l :=
  List.perm_insertionSort _ l

/-- `sortNat` sorts ascending. -/
lemma sortNat_sorted (l : List Nat) : List.Sorted (· ≤ ·) (sortNat l) :=
  List.sorted_insertionSort _ l

/-- `sortNat` preserves length. -/
lemma sortNat_length (l : List Nat) : (sortNat l).length = l.length :=
  (sortNat_perm l).length_eq

/-- Members of `sortNat l` are members of `l` and conversely. -/
lemma sortNat_mem (l : List Nat) (a : Nat) : a ∈ sortNat l ↔ a ∈ l :=
  (sortNat_perm l).mem_iff

/-- Looking a key up in a list of mapped pairs finds the mapped value. -/
lemma lookup_map_pair {α β : Type} [BEq α] [LawfulBEq α] (g : α → β) :
    ∀ (cs : List α) (c : α), c ∈ cs →
      ((cs.map (fun x => (x, g x))).lookup c) = some (g c) := by
  intro cs
  induction cs with
  | nil => intro c hc; cases hc
  | cons x xs ih =>
    intro c hc
    by_cases hxc : x = c
    · subst hxc; simp [List.lookup]
    · have hmem : c ∈ xs := by
        rcases List.mem_cons.mp hc with h | h
        · exact absurd h.symm hxc
        · exact h
      have hbeq : (c == x) = false := by
        simp only [beq_eq_false_iff_ne, ne_eq]
        exact fun h => hxc h.symm
      simpa [List.lookup, hbeq] using ih c hmem

/-- Rows collected by the fetch loop were really fetched. -/
lemma fetchLoop_sound {α : Type} (fetch : Nat → Option α) :
    ∀ l, ∀ pr ∈ (fetchLoop fetch l).1, fetch pr.1 = some pr.2 := by
  intro l
  induction l with
  | nil => intro pr h; simp [fetchLoop] at h
  | cons d ds ih =>
    intro pr h
    cases hf : fetch d with
    | none => rw [fetchLoop, hf] at h; simp at h
    | some r =>
      rw [fetchLoop, hf] at h
      simp only [List.mem_cons] at h
      rcases h with h | h
      · subst h; exact hf
      · exact ih pr h

/-- A lookup that hits in the freshly fetched rows also hits, with the same
value, after a dict update. -/
lemma dictUpdate_lookup_some {α : Type} (e f : List (Nat × α)) (d : Nat) (r : α)
    (h : f.lookup d = some r) : (dictUpdate e f).lookup d = some r := by
  have hfil : ((e.filter (fun p => (f.lookup p.1).isNone)).lookup d) = none := by
    induction e with
    | nil => simp
    | cons p e' ih =>
      by_cases hkey : p.1 = d
      · have : (f.lookup p.1).isNone = false := by rw [hkey, h]; rfl
        simpa [List.filter, this] using ih
      · have hbeq : (d == p.1) = false := by
          simp only [beq_eq_false_iff_ne, ne_eq]
          exact fun hc => hkey hc.symm
        cases hp : (f.lookup p.1).isNone <;>
          simp [List.filter, hp, List.lookup, hbeq, ih]
  rw [dictUpdate, List.lookup_append, hfil, h]
  rfl

/-- A lookup that misses the freshly fetched rows is unchanged by a dict
update. -/
lemma dictUpdate_lookup_none {α : Type} (e f : List (Nat × α)) (d : Nat)
    (h : f.lookup d = none) : (dictUpdate e f).lookup d = e.lookup d := by
  rw [dictUpdate, List.lookup_append, h]
  induction e with
  | nil => simp
  | cons p e' ih =>
    by_cases hkey : p.1 = d
    · have hkeep : (f.lookup p.1).isNone = true := by rw [hkey, h]; rfl
      have hbeq : (d == p.1) = true := by
        simp only [beq_iff_eq]; exact hkey.symm
      simp [List.filter, hkeep, List.lookup, hbeq]
    · have hbeq : (d == p.1) = false := by
        simp only [beq_eq_false_iff_ne, ne_eq]
        exact fun hc => hkey hc.symm
      cases hp : (f.lookup p.1).isNone <;>
        simpa [List.filter, hp, List.lookup, hbeq] using ih

/-- The quota budgeting step (C1): with the status snapshot's remaining
quota, the safety buffer, the missing dates and the allow-partial flag,
the decision is: skip when the remaining quota is below the buffer or
nothing is left after the buffer; skip when the available budget is short
of the missing count and a fraction of the month is not allowed; fetch
all missing dates when the budget covers them; otherwise (partial
allowed) fetch exactly `available` dates, namely the earliest missing
dates in ascending order.  In particular `remaining=5`,
`safety_buffer=1`, ten missing dates and partial allowed proceeds with
exactly the 4 earliest missing dates. -/
theorem plan_spec (remaining buffer : Int) (missing : List Nat)
    (allowIncomplete : Bool) :
    ((remaining < buffer ∨ remaining - buffer ≤ 0) →
      plan remaining buffer missing allowIncomplete = .skip)
  ∧ (0 < remaining - buffer → remaining - buffer < (missing.length : Int) →
      allowIncomplete = false →
      plan remaining buffer missing allowIncomplete = .skip)
  ∧ (0 < remaining - buffer → (missing.length : Int) ≤ remaining - buffer →
      plan remaining buffer missing allowIncomplete = .proceed (sortNat missing)
      ∧ (sortNat missing).length = missing.length
      ∧ List.Sorted (· ≤ ·) (sortNat missing)
      ∧ (sortNat missing).Perm missing)
  ∧ (0 < remaining - buffer → remaining - buffer < (missing.length : Int) →
      allowIncomplete = true →
      plan remaining buffer missing allowIncomplete =
        .proceed ((sortNat missing).take (remaining - buffer).toNat)
      ∧ ((sortNat missing).take (remaining - buffer).toNat).length =
          (remaining - buffer).toNat
      ∧ List.Sorted (· ≤ ·) ((sortNat missing).take (remaining - buffer).toNat)
      ∧ ∀ x ∈ (sortNat missing).take (remaining - buffer).toNat, ∀ y ∈ missing,
          y ∉ (sortNat missing).take (remaining - buffer).toNat → x ≤ y)
  ∧ plan 5 1 [20230110, 20230103, 20230107, 20230101, 20230102, 20230109,
      20230108, 20230104, 20230105, 20230106] true =
      .proceed [20230101, 20230102, 20230103, 20230104] := by
  have hlen : (sortNat missing).length = missing.length := sortNat_length missing
  have hperm := sortNat_perm missing
  have hsort := sortNat_sorted missing
  refine ⟨?_, ?_, ?_, ?_, ?_⟩
  · intro h
    simp only [plan, hlen]
    split_ifs <;> first | rfl | (exfalso; first | assumption | omega)
  · intro h1 h2 h3
    subst h3
    simp only [plan, hlen, Bool.not_false]
    split_ifs <;> first | rfl | (exfalso; first | assumption | omega)
  · intro h1 h2
    refine ⟨?_, hlen, hsort, hperm⟩
    simp only [plan, hlen]
    split_ifs <;> first | rfl | (exfalso; first | assumption | omega)
  · intro h1 h2 h3
    subst h3
    have hto : (remaining - buffer).toNat ≤ (sortNat missing).length := by
      rw [hlen]; omega
    refine ⟨?_, ?_, ?_, ?_⟩
    · simp only [plan, hlen, Bool.not_true]
      split_ifs <;> first | rfl | (exfalso; first | assumption | omega)
    · rw [List.length_take]; omega
    · exact List.Pairwise.sublist (List.take_sublist _ _) hsort
    · intro x hx y hy hyn
      have hys : y ∈ sortNat missing := (sortNat_mem missing y).mpr hy
      rw [← List.take_append_drop (remaining - buffer).toNat (sortNat missing)]
        at hys
      rcases List.mem_append.mp hys with hyt | hyd
      · exact absurd hyt hyn
      · have hsplit := hsort
        rw [← List.take_append_drop (remaining - buffer).toNat (sortNat missing)]
          at hsplit
        exact (List.pairwise_append.mp hsplit).2.2 x hx y hyd
  · decide

/-- Witness for `plan_spec`: with `remaining=5`, `safety_buffer=1`,
ten (unsorted) missing dates and partial allowed, the decision proceeds
with the 4 earliest dates. -/
theorem plan_spec_witness :
    plan 5 1 [20230110, 20230103, 20230107, 20230101, 20230102, 20230109,
      20230108, 20230104, 20230105, 20230106] true =
      .proceed ((sortNat [20230110, 20230103, 20230107, 20230101, 20230102,
        20230109, 20230108, 20230104, 20230105, 20230106]).take
          ((5 - 1 : Int)).toNat) :=
  ((plan_spec 5 1 [20230110, 20230103, 20230107, 20230101, 20230102, 20230109,
      20230108, 20230104, 20230105, 20230106] true).2.2.2.1
    (by decide) (by decide) rfl).1

/-- Lock revalidation (C2): if, in the record set re-read under the month
lock, every originally planned date is now present, the run issues zero
fetch requests, performs no write, and exits with success (exit code 0). -/
theorem lockPhase_revalidation_empty {α : Type} (existing : List (Nat × α))
    (allDates planned : List Nat) (fetch : Nat → Option α)
    (h : ∀ d ∈ planned, ((existing.lookup d)).isSome = true) :
    lockPhase existing allDates planned fetch = ⟨0, 0, none⟩ := by
  have hfil : planned.filter (fun d =>
      (allDates.filter (fun d => ((existing.lookup d)).isNone)).contains d) = [] := by
    apply List.filter_eq_nil_iff.mpr
    intro d hd hcon
    have hmem : d ∈ allDates.filter (fun d => ((existing.lookup d)).isNone) :=
      List.elem_iff.mp hcon
    have hnone : ((existing.lookup d)).isNone = true := (List.mem_filter.mp hmem).2
    have hsome := h d hd
    rw [Option.isNone_iff_eq_none] at hnone
    rw [hnone] at hsome
    simp at hsome
  simp only [lockPhase, revalidate, hfil]
  simp [sortNat]

/-- Witness for `lockPhase_revalidation_empty` at a concrete archive
state in which both planned dates were filled by another process. -/
theorem lockPhase_revalidation_empty_witness :
    lockPhase [(20230101, "r1"), (20230102, "r2")] [20230101, 20230102]
      [20230101, 20230102] (fun _ => none) = ⟨0, 0, none⟩ :=
  lockPhase_revalidation_empty [(20230101, "r1"), (20230102, "r2")]
    [20230101, 20230102] [20230101, 20230102] (fun _ => none) (by decide)

/-- No-progress failure (C9): if the fetch loop fails on the very first
planned date, so that no record was collected, the run performs no
archive write at all and exits with the failure code 1. -/
theorem lockPhase_zero_rows_no_write {α : Type} (existing : List (Nat × α))
    (allDates planned : List Nat) (fetch : Nat → Option α)
    (hfail : (fetchLoop fetch (revalidate existing allDates planned)).2 = false)
    (hnone : (fetchLoop fetch (revalidate existing allDates planned)).1 = []) :
    lockPhase existing allDates planned fetch = ⟨1, 1, none⟩ := by
  have hne : (revalidate existing allDates planned).isEmpty = false := by
    cases hq : revalidate existing allDates planned with
    | nil => rw [hq] at hfail; simp [fetchLoop] at hfail
    | cons a l => simp
  simp only [lockPhase, hne, hfail, hnone]
  simp

/-- Witness for `lockPhase_zero_rows_no_write`: the single planned date
fails at once; nothing is written and the exit code is 1. -/
theorem lockPhase_zero_rows_no_write_witness :
    lockPhase ([] : List (Nat × String)) [20230101] [20230101] (fun _ => none) =
      ⟨1, 1, none⟩ :=
  lockPhase_zero_rows_no_write [] [20230101] [20230101] (fun _ => none)
    (by decide) (by decide)

/-- Partial-failure persistence (C3): if the fetch loop fails after one or
more planned dates were fetched, the collected records (each really
produced by the fetch oracle) are merged into the freshly re-read record
set - fetched values winning on date collision, untouched dates keeping
their re-read values - and that merge is written; the run exits with
code 1, distinct from the success exit 0. -/
theorem lockPhase_partial_persisted {α : Type} (existing : List (Nat × α))
    (allDates planned : List Nat) (fetch : Nat → Option α)
    (hfail : (fetchLoop fetch (revalidate existing allDates planned)).2 = false)
    (hsome : (fetchLoop fetch (revalidate existing allDates planned)).1 ≠ []) :
    lockPhase existing allDates planned fetch =
      ⟨1, (fetchLoop fetch (revalidate existing allDates planned)).1.length + 1,
        some (dictUpdate existing
          (fetchLoop fetch (revalidate existing allDates planned)).1)⟩
  ∧ (∀ pr ∈ (fetchLoop fetch (revalidate existing allDates planned)).1,
      fetch pr.1 = some pr.2)
  ∧ (∀ d r,
      (fetchLoop fetch (revalidate existing allDates planned)).1.lookup d = some r →
      (dictUpdate existing
        (fetchLoop fetch (revalidate existing allDates planned)).1).lookup d = some r)
  ∧ (∀ d,
      (fetchLoop fetch (revalidate existing allDates planned)).1.lookup d = none →
      (dictUpdate existing
        (fetchLoop fetch (revalidate existing allDates planned)).1).lookup d =
        existing.lookup d)
  ∧ (1 : Nat) ≠ 0 := by
  have hne : (revalidate existing allDates planned).isEmpty = false := by
    cases hq : revalidate existing allDates planned with
    | nil => rw [hq] at hfail; simp [fetchLoop] at hfail
    | cons a l => simp
  have hones : (fetchLoop fetch (revalidate existing allDates planned)).1.isEmpty
      = false := by
    cases hq : (fetchLoop fetch (revalidate existing allDates planned)).1 with
    | nil => exact absurd hq hsome
    | cons a l => simp
  refine ⟨?_, fetchLoop_sound fetch _, ?_, ?_, one_ne_zero⟩
  · simp only [lockPhase, hne, hfail, hones]
    simp
  · intro d r h
    exact dictUpdate_lookup_some existing _ d r h
  · intro d h
    exact dictUpdate_lookup_none existing _ d h

/-- Witness for `lockPhase_partial_persisted`: of two planned dates the
first is fetched and the second fails; the fetched row is merged over the
re-read record set and written, and the exit code is 1. -/
theorem lockPhase_partial_persisted_witness :
    lockPhase [(20230103, "old")] [20230101, 20230102, 20230103]
      [20230101, 20230102] (fun d => if d = 20230101 then some "new" else none) =
      ⟨1, 2, some [(20230103, "old"), (20230101, "new")]⟩ :=
  (lockPhase_partial_persisted [(20230103, "old")] [20230101, 20230102, 20230103]
    [20230101, 20230102] (fun d => if d = 20230101 then some "new" else none)
    (by decide) (by decide)).1

/-- Membership in the month enumeration: starting from a valid month
`(y, m)`, exactly the valid months between `(y, m)` and today's month
`(ty, tm)` inclusive are enumerated. -/
lemma monthsSinceGo_mem (ty tm : Nat) (htm : tm ≤ 12) :
    ∀ y m, 1 ≤ m → m ≤ 12 → ∀ a b,
      ((a, b) ∈ monthsSinceGo ty tm y m ↔
        1 ≤ b ∧ b ≤ 12 ∧ mkey y m ≤ mkey a b ∧
          mkey a b ≤ mkey ty tm) := by
  intro y m
  induction y, m using monthsSinceGo.induct ty tm with
  | case1 y m hg ih12 ihn =>
    intro h1 h12 a b
    rw [monthsSinceGo, dif_pos hg]
    by_cases hm : m = 12
    · subst hm
      have ih := ih12 rfl (by omega) (by omega)
      rw [if_pos rfl]
      simp only [List.mem_cons, ih a b, Prod.mk.injEq, mkey]
      omega
    · have ih := ihn hm (by omega) (by omega)
      rw [if_neg hm]
      simp only [List.mem_cons, ih a b, Prod.mk.injEq, mkey]
      omega
  | case2 y m hg =>
    intro h1 h12 a b
    rw [monthsSinceGo, dif_neg hg]
    simp only [List.not_mem_nil, false_iff, mkey]
    omega

/-- The month enumeration is strictly ascending in chronological order. -/
lemma monthsSinceGo_sorted (ty tm : Nat) (htm : tm ≤ 12) :
    ∀ y m, 1 ≤ m → m ≤ 12 →
      List.Pairwise (fun p q => mkey p.1 p.2 < mkey q.1 q.2)
        (monthsSinceGo ty tm y m) := by
  intro y m
  induction y, m using monthsSinceGo.induct ty tm with
  | case1 y m hg ih12 ihn =>
    intro h1 h12
    rw [monthsSinceGo, dif_pos hg]
    by_cases hm : m = 12
    · subst hm
      rw [if_pos rfl]
      refine List.pairwise_cons.mpr ⟨?_, ih12 rfl (by omega) (by omega)⟩
      intro q hq
      obtain ⟨a, b⟩ := q
      have hb := (monthsSinceGo_mem ty tm htm (y + 1) 1 (by omega) (by omega) a b).mp hq
      simp [mkey] at hb ⊢
      omega
    · rw [if_neg hm]
      refine List.pairwise_cons.mpr ⟨?_, ihn hm (by omega) (by omega)⟩
      intro q hq
      obtain ⟨a, b⟩ := q
      have hb := (monthsSinceGo_mem ty tm htm y (m + 1) (by omega) (by omega) a b).mp hq
      simp [mkey] at hb ⊢
      omega
  | case2 y m hg =>
    intro h1 h12
    rw [monthsSinceGo, dif_neg hg]
    exact List.Pairwise.nil

/-- `findTarget` returns nothing exactly when every scanned month is
complete. -/
lemma findTarget_eq_none {α : Type} (archive : Nat → Nat → List (Nat × α)) :
    ∀ months, findTarget archive months = none ↔
      ∀ p ∈ months, missingIn archive p.1 p.2 = [] := by
  intro months
  induction months with
  | nil => simp [findTarget]
  | cons q rest ih =>
    obtain ⟨y0, m0⟩ := q
    by_cases hmiss : (missingIn archive y0 m0).isEmpty
    · have hms : missingIn archive y0 m0 = [] := List.isEmpty_iff.mp hmiss
      simp [findTarget, hmiss, ih, List.forall_mem_cons, hms]
    · have hms : missingIn archive y0 m0 ≠ [] := by
        intro hcon
        rw [hcon] at hmiss
        simp at hmiss
      simp [findTarget, hmiss, List.forall_mem_cons, hms]

/-- What `findTarget` returns when it selects a month: the selected month
carries its own non-empty missing set and every month scanned before it
was complete. -/
lemma findTarget_eq_some {α : Type} (archive : Nat → Nat → List (Nat × α)) :
    ∀ months y m miss, findTarget archive months = some (y, m, miss) →
      miss = missingIn archive y m ∧ miss ≠ [] ∧
      ∃ pre post, months = pre ++ (y, m) :: post ∧
        ∀ p ∈ pre, missingIn archive p.1 p.2 = [] := by
  intro months
  induction months with
  | nil => intro y m miss h; simp [findTarget] at h
  | cons q rest ih =>
    obtain ⟨y0, m0⟩ := q
    intro y m miss h
    by_cases hmiss : (missingIn archive y0 m0).isEmpty
    · have hms : missingIn archive y0 m0 = [] := List.isEmpty_iff.mp hmiss
      rw [findTarget, if_pos hmiss] at h
      obtain ⟨h1, h2, pre, post, heq, hpre⟩ := ih y m miss h
      refine ⟨h1, h2, (y0, m0) :: pre, post, by rw [heq]; rfl, ?_⟩
      intro p hp
      rcases List.mem_cons.mp hp with hp | hp
      · rw [hp]; exact hms
      · exact hpre p hp
    · rw [findTarget, if_neg hmiss] at h
      have hcomp : y0 = y ∧ m0 = m ∧ missingIn archive y0 m0 = miss := by
        have := Option.some.inj h
        exact ⟨congrArg (fun t => t.1) this,
          congrArg (fun t => t.2.1) this, congrArg (fun t => t.2.2) this⟩
      obtain ⟨rfl, rfl, rfl⟩ := hcomp
      have hms : missingIn archive y0 m0 ≠ [] := by
        intro hcon
        rw [hcon] at hmiss
        simp at hmiss
      exact ⟨rfl, hms, [], rest, rfl, by intro p hp; simp at hp⟩

/-- Month location (C4): the month enumeration runs from `(start_year, 1)`
through the current month `(ty, tm)` inclusive in strictly ascending
order; the locator selects the first enumerated month with a non-empty
missing set - so whenever it selects, every chronologically earlier
enumerated month is complete - and selects nothing exactly when every
enumerated month is complete, in which case the run exits successfully
with no fetches and no write.  If some enumerated month has both a
persisted record and a missing date, a month is selected. -/
theorem monthLocator_spec {α : Type} (ty tm yearStart : Nat)
    (archive : Nat → Nat → List (Nat × α)) (h1 : 1 ≤ tm) (h2 : tm ≤ 12) :
    (∀ a b, ((a, b) ∈ monthsSince ty tm yearStart ↔
        1 ≤ b ∧ b ≤ 12 ∧ mkey yearStart 1 ≤ mkey a b ∧ mkey a b ≤ mkey ty tm))
  ∧ List.Pairwise (fun p q => mkey p.1 p.2 < mkey q.1 q.2)
      (monthsSince ty tm yearStart)
  ∧ (findTarget archive (monthsSince ty tm yearStart) = none ↔
      ∀ p ∈ monthsSince ty tm yearStart, missingIn archive p.1 p.2 = [])
  ∧ (∀ y m miss,
      findTarget archive (monthsSince ty tm yearStart) = some (y, m, miss) →
      miss = missingIn archive y m ∧ miss ≠ [] ∧
      (y, m) ∈ monthsSince ty tm yearStart ∧
      ∀ p ∈ monthsSince ty tm yearStart, mkey p.1 p.2 < mkey y m →
        missingIn archive p.1 p.2 = [])
  ∧ ((∃ p ∈ monthsSince ty tm yearStart, missingIn archive p.1 p.2 ≠ [] ∧
        ∃ d ∈ datesInMonth p.1 p.2, ((archive p.1 p.2).lookup d).isSome = true) →
      ∃ y m miss,
        findTarget archive (monthsSince ty tm yearStart) = some (y, m, miss))
  ∧ (findTarget archive (monthsSince ty tm yearStart) = none →
      ∀ (buffer : Int) (allowIncomplete : Bool) (ro : Option Int)
        (existingLocked : List (Nat × α)) (fetch : Nat → Option α),
        mainModel buffer allowIncomplete ty tm yearStart archive (some ro)
          existingLocked fetch = ⟨0, 0, none⟩) := by
  have hsorted := monthsSinceGo_sorted ty tm h2 yearStart 1 (by omega) (by omega)
  refine ⟨monthsSinceGo_mem ty tm h2 yearStart 1 (by omega) (by omega),
    hsorted, findTarget_eq_none archive _, ?_, ?_, ?_⟩
  · intro y m miss h
    obtain ⟨hmiss, hne, pre, post, heq, hpre⟩ := findTarget_eq_some archive _ y m miss h
    refine ⟨hmiss, hne, ?_, ?_⟩
    · rw [heq]
      exact List.mem_append.mpr (Or.inr (List.mem_cons_self _ _))
    · intro p hp hlt
      rw [heq] at hp
      rcases List.mem_append.mp hp with hp | hp
      · exact hpre p hp
      · rcases List.mem_cons.mp hp with hp | hp
        · rw [hp] at hlt
          simp [mkey] at hlt
        · exfalso
          have hs : List.Pairwise (fun p q => mkey p.1 p.2 < mkey q.1 q.2)
              (pre ++ (y, m) :: post) := by
            rw [← heq]
            exact hsorted
          have hrel := ((List.pairwise_append.mp hs).2.1)
          have hyl := (List.pairwise_cons.mp hrel).1 p hp
          simp [mkey] at hyl hlt
          omega
  · intro hex
    cases hft : findTarget archive (monthsSince ty tm yearStart) with
    | none =>
      exfalso
      obtain ⟨p, hp, hne, -⟩ := hex
      exact hne ((findTarget_eq_none archive _).mp hft p hp)
    | some v =>
      obtain ⟨y, m, miss⟩ := v
      exact ⟨y, m, miss, rfl⟩
  · intro hnone buffer allowIncomplete ro existingLocked fetch
    simp [mainModel, hnone]

/-- Witness for `monthLocator_spec`: with a start year after today's
month, nothing is enumerated, the locator selects nothing and the run
exits 0 having fetched and written nothing. -/
theorem monthLocator_spec_witness :
    mainModel (1 : Int) false 2022 1 2023 (fun _ _ => ([] : List (Nat × String)))
      (some (some 10)) [] (fun _ => none) = ⟨0, 0, none⟩ := by
  have hnone : findTarget (fun _ _ => ([] : List (Nat × String)))
      (monthsSince 2022 1 2023) = none := by
    rw [monthsSince, monthsSinceGo]
    rw [dif_neg (by omega)]
    rfl
  exact (@monthLocator_spec String 2022 1 2023 (fun _ _ => []) (by omega)
    (by omega)).2.2.2.2.2 hnone 1 false (some 10) [] (fun _ => none)

/-- A step that is not the rename leaves the destination file unchanged. -/
lemma applyOp_dest_eq (fs : FS) (op : WOp) (h : op ≠ WOp.renameTmp) :
    (applyOp fs op).dest = fs.dest := by
  cases op with
  | createTmp => rfl
  | writeLine l => rfl
  | renameTmp => exact absurd rfl h
  | cleanup => rfl

/-- A run of steps none of which is the rename leaves the destination file
unchanged. -/
lemma runOps_dest_eq (ops : List WOp) :
    ∀ fs, (∀ op ∈ ops, op ≠ WOp.renameTmp) → (runOps fs ops).dest = fs.dest := by
  induction ops with
  | nil => intro fs h; rfl
  | cons op rest ih =>
    intro fs h
    have h1 : op ≠ WOp.renameTmp := h op (List.mem_cons_self _ _)
    have h2 : ∀ o ∈ rest, o ≠ WOp.renameTmp :=
      fun o ho => h o (List.mem_cons_of_mem _ ho)
    calc (runOps fs (op :: rest)).dest
        = (runOps (applyOp fs op) rest).dest := rfl
      _ = (applyOp fs op).dest := ih (applyOp fs op) h2
      _ = fs.dest := applyOp_dest_eq fs op h1

/-- Appending lines to an existing temporary file. -/
lemma runOps_writeLines (lines : List CsvLine) :
    ∀ (d : Option (List CsvLine)) (c : List CsvLine),
      runOps ⟨d, some c⟩ (lines.map WOp.writeLine) = ⟨d, some (c ++ lines)⟩ := by
  induction lines with
  | nil => intro d c; simp [runOps]
  | cons l rest ih =>
    intro d c
    calc runOps ⟨d, some c⟩ ((l :: rest).map WOp.writeLine)
        = runOps ⟨d, some (c ++ [l])⟩ (rest.map WOp.writeLine) := rfl
      _ = ⟨d, some ((c ++ [l]) ++ rest)⟩ := ih d (c ++ [l])
      _ = ⟨d, some (c ++ (l :: rest))⟩ := by simp

/-- The body of the write script is the serialized data lines, each
wrapped as a write step. -/
lemma writeScript_eq (currencies : List String) (rows : List (Nat × NRow)) :
    writeScript currencies rows =
      (WOp.createTmp :: (serializeAll currencies rows).map WOp.writeLine)
        ++ [WOp.renameTmp] := by
  rw [writeScript, serializeAll]
  have hfun : ∀ d : Nat,
      Option.map (fun r => WOp.writeLine (serializeRow currencies r))
          (List.lookup d rows) =
        Option.map WOp.writeLine
          (Option.map (serializeRow currencies) (List.lookup d rows)) := by
    intro d
    cases List.lookup d rows <;> rfl
  simp [List.map_filterMap, hfun]

/-- No step of the write script but its last is the rename. -/
lemma writeScript_front_no_rename (currencies : List String)
    (rows : List (Nat × NRow)) :
    ∀ op ∈ WOp.createTmp :: (serializeAll currencies rows).map WOp.writeLine,
      op ≠ WOp.renameTmp := by
  intro op hop
  rcases List.mem_cons.mp hop with h | h
  · rw [h]; intro hcon; cases hcon
  · obtain ⟨l, -, hl⟩ := List.mem_map.mp h
    rw [← hl]
    intro hcon
    cases hcon

/-- Atomic archive write (C5): a full run of `write_csv_rows` replaces the
destination with the complete serialization - header `date` plus the
configured currencies, one line per record in ascending date order - and
removes the temporary file; before the final rename the destination
always still holds its prior content, so a reader never observes a
partially written destination; and a run interrupted at any point before
the rename, with its `finally` cleanup, removes the temporary file and
leaves the destination at its prior content. -/
theorem writeCsvRows_atomic (currencies : List String) (rows : List (Nat × NRow))
    (fs : FS) :
    writeCsvRows currencies rows fs = ⟨some (serializeAll currencies rows), none⟩
  ∧ (∀ k, k < (writeScript currencies rows).length →
      (runOps fs ((writeScript currencies rows).take k)).dest = fs.dest)
  ∧ (∀ k, k < (writeScript currencies rows).length →
      writeCsvRowsFailAt currencies rows k fs = ⟨fs.dest, none⟩)
  ∧ List.Sorted (· ≤ ·) (sortNat (rows.map Prod.fst))
  ∧ (sortNat (rows.map Prod.fst)).Perm (rows.map Prod.fst) := by
  have hfr : runOps fs
      (WOp.createTmp :: (serializeAll currencies rows).map WOp.writeLine) =
      ⟨fs.dest, some (serializeAll currencies rows)⟩ := by
    have h0 : runOps fs
        (WOp.createTmp :: (serializeAll currencies rows).map WOp.writeLine) =
        runOps ⟨fs.dest, some []⟩
          ((serializeAll currencies rows).map WOp.writeLine) := rfl
    rw [h0, runOps_writeLines]
    simp
  have hlen : (writeScript currencies rows).length =
      (WOp.createTmp ::
        (serializeAll currencies rows).map WOp.writeLine).length + 1 := by
    rw [writeScript_eq]
    simp
  have hpre : ∀ k, k < (writeScript currencies rows).length →
      (runOps fs ((writeScript currencies rows).take k)).dest = fs.dest := by
    intro k hk
    rw [writeScript_eq]
    rw [List.take_append_of_le_length (by rw [hlen] at hk; omega)]
    apply runOps_dest_eq
    intro op hop
    exact writeScript_front_no_rename currencies rows op (List.mem_of_mem_take hop)
  refine ⟨?_, hpre, ?_, sortNat_sorted _, sortNat_perm _⟩
  · rw [writeCsvRows, writeScript_eq]
    have hassoc : ((WOp.createTmp ::
        (serializeAll currencies rows).map WOp.writeLine) ++ [WOp.renameTmp]) ++
          [WOp.cleanup] =
        (WOp.createTmp :: (serializeAll currencies rows).map WOp.writeLine) ++
          [WOp.renameTmp, WOp.cleanup] := by
      simp
    rw [hassoc, runOps, List.foldl_append]
    have h2 : List.foldl applyOp fs
        (WOp.createTmp :: (serializeAll currencies rows).map WOp.writeLine) =
        ⟨fs.dest, some (serializeAll currencies rows)⟩ := hfr
    rw [h2]
    rfl
  · intro k hk
    have hd := hpre k hk
    rw [writeCsvRowsFailAt, runOps, List.foldl_append]
    have h3 : applyOp (List.foldl applyOp fs ((writeScript currencies rows).take k))
        WOp.cleanup =
        ⟨(runOps fs ((writeScript currencies rows).take k)).dest, none⟩ := rfl
    have h4 : List.foldl applyOp
        (List.foldl applyOp fs ((writeScript currencies rows).take k))
        [WOp.cleanup] =
        applyOp (List.foldl applyOp fs ((writeScript currencies rows).take k))
          WOp.cleanup := rfl
    rw [h4, h3, hd]

/-- Witness for `writeCsvRows_atomic`: a write of one record interrupted
right after the header was written to the temporary file leaves the old
destination untouched and no temporary file behind. -/
theorem writeCsvRows_atomic_witness :
    writeCsvRowsFailAt ["EUR"] [(20230102, ⟨20230102, [("EUR", Cell.num 2)]⟩)] 2
      ⟨some [CsvLine.header ["date", "EUR"], CsvLine.data 20230101 [Cell.blank]],
        none⟩ =
      ⟨some [CsvLine.header ["date", "EUR"], CsvLine.data 20230101 [Cell.blank]],
        none⟩ :=
  (writeCsvRows_atomic ["EUR"] [(20230102, ⟨20230102, [("EUR", Cell.num 2)]⟩)]
    ⟨some [CsvLine.header ["date", "EUR"], CsvLine.data 20230101 [Cell.blank]],
      none⟩).2.2.1 2 (by decide)

/-- A non-retriable response returns at once, with no sleep, whatever the
retry budget. -/
lemma doRequestGo_return (base : ℚ) (o : Nat → Outcome) (a s : Nat)
    (ho : o a = .resp s) (hs : s < 500) :
    ∀ n, doRequestGo base o n a = ([], .ok (a, s)) := by
  intro n
  cases n with
  | zero => simp [doRequestGo, ho]
  | succ n =>
    simp only [doRequestGo, ho]
    rw [if_neg (by omega)]

/-- With retries left, a retriable outcome sleeps the backoff of the
current attempt and continues with the next attempt. -/
lemma doRequestGo_step (base : ℚ) (o : Nat → Outcome) (n a : Nat)
    (h : retriable (o a)) :
    doRequestGo base o (n + 1) a =
      (base * 2 ^ (a - 1) :: (doRequestGo base o n (a + 1)).1,
       (doRequestGo base o n (a + 1)).2) := by
  cases ho : o a with
  | err => simp [doRequestGo, ho]
  | resp st =>
    have h5 : 500 ≤ st := by rw [ho] at h; exact h
    simp [doRequestGo, ho, if_pos h5]

/-- Running `j` consecutive retriable attempts from attempt `a` consumes
`j` retries and performs the backoff sleeps of attempts `a, .., a+j-1`. -/
lemma doRequestGo_run (base : ℚ) (o : Nat → Outcome) :
    ∀ (j n a : Nat), j ≤ n → 1 ≤ a →
      (∀ i, a ≤ i → i < a + j → retriable (o i)) →
      doRequestGo base o n a =
        ((List.range j).map (fun i => base * 2 ^ (a - 1 + i)) ++
          (doRequestGo base o (n - j) (a + j)).1,
         (doRequestGo base o (n - j) (a + j)).2) := by
  intro j
  induction j with
  | zero => intro n a h1 h2 h3; simp
  | succ j ih =>
    intro n a hjn ha hret
    obtain ⟨n', rfl⟩ : ∃ n', n = n' + 1 := ⟨n - 1, by omega⟩
    rw [doRequestGo_step base o n' a (hret a (le_refl a) (by omega))]
    rw [ih n' (a + 1) (by omega) (by omega)
      (fun i hi1 hi2 => hret i (by omega) (by omega))]
    rw [show n' + 1 - (j + 1) = n' - j from by omega]
    rw [show a + 1 + j = a + (j + 1) from by omega]
    have hmap : (List.range (j + 1)).map (fun i => base * 2 ^ (a - 1 + i)) =
        base * 2 ^ (a - 1) ::
          (List.range j).map (fun i => base * 2 ^ (a + 1 - 1 + i)) := by
      rw [List.range_succ_eq_map, List.map_cons, List.map_map]
      refine List.cons_eq_cons.mpr ⟨by norm_num, ?_⟩
      apply List.map_congr_left
      intro i hi
      show base * 2 ^ (a - 1 + (i + 1)) = base * 2 ^ (a + 1 - 1 + i)
      have hexp : a - 1 + (i + 1) = a + 1 - 1 + i := by omega
      rw [hexp]
    rw [hmap, List.cons_append]

/-- Retry policy of `do_request` (C6): an attempt is retried exactly when
it hit a transport failure or an HTTP 5xx and at most `MAX_RETRIES`
retries have been used, each retry preceded by a sleep of
`base * 2 ^ (attempt - 1)`; a transport failure after exhausting retries
is raised; a 5xx on the last allowed attempt is returned, not raised; a
429 - like every other non-5xx status - is returned to the caller as-is,
never retried, from whichever attempt produced it. -/
theorem doRequest_spec (maxRetries : Nat) (base : ℚ) (o : Nat → Outcome) :
    (∀ k s, 1 ≤ k → k ≤ maxRetries + 1 → o k = .resp s → s < 500 →
      (∀ i, 1 ≤ i → i < k → retriable (o i)) →
      doRequest maxRetries base o =
        ((List.range (k - 1)).map (fun i => base * 2 ^ i), .ok (k, s)))
  ∧ ((∀ i, 1 ≤ i → i ≤ maxRetries + 1 → o i = .err) →
      doRequest maxRetries base o =
        ((List.range maxRetries).map (fun i => base * 2 ^ i), .error ()))
  ∧ (∀ s, 500 ≤ s → (∀ i, 1 ≤ i → i ≤ maxRetries → retriable (o i)) →
      o (maxRetries + 1) = .resp s →
      doRequest maxRetries base o =
        ((List.range maxRetries).map (fun i => base * 2 ^ i),
          .ok (maxRetries + 1, s)))
  ∧ (∀ s, s < 500 → o 1 = .resp s →
      doRequest maxRetries base o = ([], .ok (1, s))) := by
  refine ⟨?_, ?_, ?_, ?_⟩
  · intro k s hk1 hk2 ho hs hret
    rw [doRequest, doRequestGo_run base o (k - 1) maxRetries 1 (by omega)
      (le_refl 1) (fun i h1 h2 => hret i h1 (by omega))]
    rw [show 1 + (k - 1) = k from by omega]
    rw [doRequestGo_return base o k s ho hs]
    simp
  · intro h
    rw [doRequest, doRequestGo_run base o maxRetries maxRetries 1 (le_refl _)
      (le_refl 1) (fun i h1 h2 => by rw [h i h1 (by omega)]; trivial)]
    rw [Nat.sub_self]
    have ho : o (1 + maxRetries) = .err := h (1 + maxRetries) (by omega) (by omega)
    simp [doRequestGo, ho]
  · intro s h5 hret ho
    rw [doRequest, doRequestGo_run base o maxRetries maxRetries 1 (le_refl _)
      (le_refl 1) (fun i h1 h2 => hret i h1 (by omega))]
    rw [Nat.sub_self]
    have ho' : o (1 + maxRetries) = .resp s := by
      rw [show 1 + maxRetries = maxRetries + 1 from by omega]
      exact ho
    simp [doRequestGo, ho']
    omega
  · intro s hs ho
    rw [doRequest, doRequestGo_return base o 1 s ho hs]

/-- Witness for `doRequest_spec`: two transport failures then a 429;
attempts 1 and 2 are retried after sleeping 1s and 2s, the 429 of attempt
3 is returned as-is. -/
theorem doRequest_spec_witness :
    doRequest 4 1 (fun i => if i ≤ 2 then Outcome.err else Outcome.resp 429) =
      ((List.range 2).map (fun i => (1 : ℚ) * 2 ^ i), .ok (3, 429)) :=
  (doRequest_spec 4 1 (fun i => if i ≤ 2 then Outcome.err else Outcome.resp 429)).1
    3 429 (by omega) (by omega) (by norm_num) (by omega)
    (fun i h1 h2 => by
      rw [if_pos (show i ≤ 2 from by omega)]
      trivial)

/-- Rows skipped by `readStep` are exactly those without a usable date. -/
lemma readStep_skip (currencies : List String) (acc : List (String × SRow))
    (r : RawRow) (h : rowHasDate r = false) :
    readStep currencies acc r = acc := by
  rw [readStep]
  rw [rowHasDate] at h
  cases hl : r.lookup "date" with
  | none => simp
  | some d =>
    rw [hl] at h
    simp only at h
    have hd : d = "" := by
      by_cases hc : d = ""
      · exact hc
      · rw [bne_eq_false_iff_eq] at h
        exact h
    simp [hd]

/-- Folding the read step over the rows ignores the rows without a usable
date. -/
lemma readFold_filter (currencies : List String) :
    ∀ (rows : List RawRow) (acc : List (String × SRow)),
      rows.foldl (readStep currencies) acc =
        (rows.filter rowHasDate).foldl (readStep currencies) acc := by
  intro rows
  induction rows with
  | nil => intro acc; rfl
  | cons r rest ih =>
    intro acc
    cases hr : rowHasDate r with
    | false =>
      simp only [List.foldl_cons, List.filter_cons, hr]
      rw [readStep_skip currencies acc r hr]
      exact ih acc
    | true =>
      simp only [List.foldl_cons, List.filter_cons, hr]
      exact ih (readStep currencies acc r)

/-- Provenance of the read result: every stored row comes from some raw
row with that date, normalized. -/
lemma readFold_provenance (currencies : List String) :
    ∀ (rows : List RawRow) (acc : List (String × SRow)) (d : String) (r : SRow),
      (d, r) ∈ rows.foldl (readStep currencies) acc →
      (d, r) ∈ acc ∨ ∃ raw ∈ rows, raw.lookup "date" = some d ∧ d ≠ "" ∧
        r = normalizeRow currencies raw d := by
  intro rows
  induction rows with
  | nil => intro acc d r h; exact Or.inl h
  | cons r0 rest ih =>
    intro acc d r h
    rcases ih (readStep currencies acc r0) d r h with h1 | ⟨raw, hraw, h2, h3, h4⟩
    · cases hl : r0.lookup "date" with
      | none =>
        simp only [readStep, hl] at h1
        exact Or.inl h1
      | some d0 =>
        simp only [readStep, hl] at h1
        by_cases hd0 : d0 = ""
        · rw [if_pos hd0] at h1
          exact Or.inl h1
        · rw [if_neg hd0] at h1
          rw [upsertS] at h1
          rcases List.mem_append.mp h1 with h2 | h2
          · exact Or.inl (List.mem_of_mem_filter h2)
          · have h3 : (d, r) = (d0, normalizeRow currencies r0 d0) := by
              simpa using h2
            have hd : d = d0 := congrArg Prod.fst h3
            have hr : r = normalizeRow currencies r0 d0 := congrArg Prod.snd h3
            subst hd
            exact Or.inr ⟨r0, List.mem_cons_self _ _, hl, hd0, hr⟩
    · exact Or.inr ⟨raw, List.mem_cons_of_mem _ hraw, h2, h3, h4⟩

/-- Counterexample to C7 as stated: a non-empty cell that does not parse
as a number is kept as the raw string, not turned into the blank
sentinel.  Reading a row whose `EUR` cell is `"abc"` yields the raw
string cell. -/
theorem readCsvRows_raw_cell_counterexample :
    ((readCsvRows ["EUR"] (some [[("date", "2023-01-01"), ("EUR", "abc")]])).lookup
      "2023-01-01") =
      some { date := "2023-01-01", rates := [("EUR", Cell.raw "abc")] }
  ∧ (Cell.raw "abc").isBlankC = false
  ∧ (Cell.raw "abc").isNumC = false := by
  decide

/-- Archive read (C7, amended): reading a missing file yields the empty
mapping; rows without a usable date cell are skipped and the read never
fails; every stored row is the normalization of a raw row with its date,
where each cell is the parsed number when the raw cell parses, the blank
sentinel when the raw cell is absent or empty (never zero), and the raw
string itself when non-empty but unparseable. -/
theorem readCsvRows_amended_spec (currencies : List String) :
    readCsvRows currencies none = []
  ∧ (∀ rows, readCsvRows currencies (some rows) =
      readCsvRows currencies (some (rows.filter rowHasDate)))
  ∧ (∀ rows d r, (d, r) ∈ readCsvRows currencies (some rows) →
      r.date = d ∧ ∃ raw ∈ rows, raw.lookup "date" = some d ∧ d ≠ "" ∧
        r = normalizeRow currencies raw d)
  ∧ (∀ (raw : RawRow) d c, c ∈ currencies →
      (normalizeRow currencies raw d).rates.lookup c =
        some (normalizeCell (raw.lookup c)))
  ∧ normalizeCell none = Cell.blank
  ∧ normalizeCell (some "") = Cell.blank
  ∧ (∀ s q, s ≠ "" → parseFloat s = some q → normalizeCell (some s) = Cell.num q)
  ∧ (∀ s, s ≠ "" → parseFloat s = none → normalizeCell (some s) = Cell.raw s)
  ∧ Cell.blank ≠ Cell.num 0 := by
  refine ⟨rfl, ?_, ?_, ?_, rfl, rfl, ?_, ?_, by intro h; cases h⟩
  · intro rows
    exact readFold_filter currencies rows []
  · intro rows d r h
    rcases readFold_provenance currencies rows [] d r h with h1 | ⟨raw, hraw, h2, h3, h4⟩
    · simp at h1
    · exact ⟨by rw [h4]; rfl, raw, hraw, h2, h3, h4⟩
  · intro raw d c hc
    exact lookup_map_pair (fun c => normalizeCell (raw.lookup c)) currencies c hc
  · intro s q hs hp
    rw [normalizeCell, if_neg hs, hp]
  · intro s hs hp
    rw [normalizeCell, if_neg hs, hp]

/-- Witness for `readCsvRows_amended_spec`: the cell string `"abc"` is
non-empty and unparseable, so its cell is the raw string. -/
theorem readCsvRows_amended_spec_witness :
    normalizeCell (some "abc") = Cell.raw "abc" :=
  (readCsvRows_amended_spec ["EUR"]).2.2.2.2.2.2.2.1 "abc" (by decide) (by decide)

/-- Base-currency invariant (C8): every row a successful historical fetch
returns carries rate exactly 1.0 for the base currency, whatever the
remote API said for it, provided the base currency is among the
configured currency columns. -/
theorem getHistoricalForDate_base_one (base : String) (currencies : List String)
    (status : Nat) (apiDay : String → Option ℚ) (dateIso : String) (row : SRow)
    (hmem : base ∈ currencies)
    (hok : getHistoricalForDate base currencies status apiDay dateIso =
      Except.ok row) :
    row.rates.lookup base = some (Cell.num 1) := by
  simp only [getHistoricalForDate] at hok
  by_cases h429 : status = 429
  · rw [if_pos h429] at hok
    cases hok
  · rw [if_neg h429] at hok
    by_cases h200 : status ≠ 200
    · rw [if_pos h200] at hok
      cases hok
    · rw [if_neg h200] at hok
      have hrow := (Except.ok.inj hok).symm
      have hl := lookup_map_pair
        (fun c => match (if c = base then some (1 : ℚ) else apiDay c) with
          | none => Cell.blank
          | some v => Cell.num v) currencies base hmem
      rw [hrow]
      refine hl.trans ?_
      simp

/-- Witness for `getHistoricalForDate_base_one`: the API reports 7.0 for
the base currency `USD`, yet the produced row carries exactly 1.0. -/
theorem getHistoricalForDate_base_one_witness :
    (({ date := "2023-01-05",
        rates := [("USD", Cell.num 1), ("EUR", Cell.num 2)] } : SRow).rates.lookup
      "USD") = some (Cell.num 1) :=
  getHistoricalForDate_base_one "USD" ["USD", "EUR"] 200
    (fun c => if c = "USD" then some 7 else some 2) "2023-01-05"
    { date := "2023-01-05", rates := [("USD", Cell.num 1), ("EUR", Cell.num 2)] }
    (by decide) rfl

/-- Python `min` of a non-empty list is a member and a lower bound. -/
lemma listMin_foldl_spec :
    ∀ (ts : List ℚ) (t : ℚ),
      (ts.foldl min t ∈ t :: ts) ∧ (∀ u ∈ t :: ts, ts.foldl min t ≤ u) := by
  intro ts
  induction ts with
  | nil =>
    intro t
    constructor
    · simp
    · intro u hu
      simp at hu
      simp [hu]
  | cons x rest ih =>
    intro t
    have hx := ih (min t x)
    constructor
    · rcases List.mem_cons.mp hx.1 with h | h
      · rcases min_choice t x with hc | hc
        · rw [List.foldl_cons, h, hc]
          exact List.mem_cons_self _ _
        · rw [List.foldl_cons, h, hc]
          exact List.mem_cons_of_mem _ (List.mem_cons_self _ _)
      · exact List.mem_cons_of_mem _ (List.mem_cons_of_mem _ h)
    · intro u hu
      rcases List.mem_cons.mp hu with h | h
      · rw [List.foldl_cons, h]
        exact le_trans (hx.2 (min t x) (List.mem_cons_self _ _)) (min_le_left _ _)
      · rcases List.mem_cons.mp h with h' | h'
        · rw [List.foldl_cons, h']
          exact le_trans (hx.2 (min t x) (List.mem_cons_self _ _)) (min_le_right _ _)
        · exact hx.2 u (List.mem_cons_of_mem _ h')

/-- Rate limiter admission (C10): when `wait_for_rate_slot` returns
(assuming the usage invariant that at most `MAX_PER_MINUTE` timestamps
are recorded, and a clock that sleeps at least the requested duration),
strictly fewer than `MAX_PER_MINUTE` recorded timestamps remain, all of
them inside the trailing 60-second window of the return time; hence at
the moment the request records its own timestamp, the window holds at
most `MAX_PER_MINUTE` requests. -/
theorem waitForRateSlot_spec (maxPerMinute : Nat) (now : ℚ) (ts : List ℚ)
    (awake : ℚ → ℚ) (hmax : 1 ≤ maxPerMinute) (hlen : ts.length ≤ maxPerMinute)
    (hawake : ∀ u, u ≤ awake u) :
    ((waitForRateSlot maxPerMinute now ts awake).2).length < maxPerMinute
  ∧ (∀ t ∈ (waitForRateSlot maxPerMinute now ts awake).2,
      (waitForRateSlot maxPerMinute now ts awake).1 - t < 60)
  ∧ ((waitForRateSlot maxPerMinute now ts awake).1 ::
      (waitForRateSlot maxPerMinute now ts awake).2).length ≤ maxPerMinute := by
  by_cases hfull : (pruneWindow now ts).length < maxPerMinute
  · have hres : waitForRateSlot maxPerMinute now ts awake =
        (now, pruneWindow now ts) := by
      rw [waitForRateSlot, if_pos hfull]
    rw [hres]
    dsimp only
    refine ⟨hfull, ?_, ?_⟩
    · intro t ht
      have := (List.mem_filter.mp ht).2
      simpa using this
    · simp only [List.length_cons]
      omega
  · have hle : (pruneWindow now ts).length ≤ ts.length :=
      List.length_filter_le _ _
    have hlen1 : (pruneWindow now ts).length = maxPerMinute := by omega
    have hne : pruneWindow now ts ≠ [] := by
      intro hcon
      rw [hcon] at hlen1
      simp at hlen1
      omega
    have hmin : listMin (pruneWindow now ts) ∈ pruneWindow now ts := by
      cases hq : pruneWindow now ts with
      | nil => exact absurd hq hne
      | cons t0 rest =>
        rw [listMin]
        exact (listMin_foldl_spec rest t0).1
    have hwin : now - listMin (pruneWindow now ts) < 60 := by
      have := (List.mem_filter.mp hmin).2
      simpa using this
    have hres : waitForRateSlot maxPerMinute now ts awake =
        (awake (now + (60 - (now - listMin (pruneWindow now ts)) + 0.05)),
          pruneWindow
            (awake (now + (60 - (now - listMin (pruneWindow now ts)) + 0.05)))
            (pruneWindow now ts)) := by
      rw [waitForRateSlot, if_neg hfull]
    have hnow2 : listMin (pruneWindow now ts) + 60 + 0.05 ≤
        awake (now + (60 - (now - listMin (pruneWindow now ts)) + 0.05)) := by
      have h := hawake (now + (60 - (now - listMin (pruneWindow now ts)) + 0.05))
      linarith
    have hdrop : (pruneWindow
        (awake (now + (60 - (now - listMin (pruneWindow now ts)) + 0.05)))
        (pruneWindow now ts)).length < (pruneWindow now ts).length := by
      apply List.length_filter_lt_length_iff_exists.mpr
      refine ⟨listMin (pruneWindow now ts), hmin, ?_⟩
      simp only [decide_eq_true_eq, not_lt]
      linarith
    rw [hres]
    dsimp only
    refine ⟨by omega, ?_, ?_⟩
    · intro t ht
      have := (List.mem_filter.mp ht).2
      simpa using this
    · simp only [List.length_cons]
      omega

/-- Witness for `waitForRateSlot_spec`: with a cap of 2 and two recorded
timestamps filling the window, the admission call sleeps past the oldest
timestamp and returns with fewer than 2 timestamps in the new window. -/
theorem waitForRateSlot_spec_witness :
    ((waitForRateSlot 2 30 [0, 30] id).2).length < 2
  ∧ (∀ t ∈ (waitForRateSlot 2 30 [0, 30] id).2,
      (waitForRateSlot 2 30 [0, 30] id).1 - t < 60)
  ∧ ((waitForRateSlot 2 30 [0, 30] id).1 ::
      (waitForRateSlot 2 30 [0, 30] id).2).length ≤ 2 :=
  waitForRateSlot_spec 2 30 [0, 30] id (by omega) (by simp)
    (fun u => le_refl u)
